import Mathlib

/-!
Formal model of the cpp-traverse binary codec.

This file embeds, in Lean, the binary serialization layer of the
cpp-traverse library (`traverse.h` and `traverse-variant.h`):

* the variable-length unsigned integer codec `write_unsigned_int` /
  `read_unsigned_int` (7 data bits per byte, high bit = continue);
* the zigzag signed integer codec `write_signed_int` / `read_signed_int`;
* the `BinarySerialize` visitor (one Lean equation per C++ `visit` overload);
* the `BinaryDeserialize` visitor together with its accumulated error sink
  (modelled as a `List String` of the exact messages the C++ code builds);
* the `CoutWriter` debug rendering used for observational equality.

Byte streams are `List Nat` (bytes produced by the writer are < 256).
`std::streambuf` reading is modelled by returning the unread suffix of the
list; reaching the end of the list is `sbumpc() == eof`.  A 64-bit unsigned
quantity is a `Nat` together with reduction `% 2 ^ 64` exactly where the C++
code truncates; a 64-bit signed quantity is an `Int` in the int64 range.

In the C++ reader the local `uint64_t wide_value` of the unsigned-number
visit is not assigned by `read_unsigned_int` on failure, so the value stored
into the destination is whatever was on the stack.  The model makes that
explicit: deserialization functions take a `junk : Nat` parameter standing
for the arbitrary contents of that local variable.
-/

/-! ### Variable length integer codec (`traverse.h`, lines 173-215) -/

/-- One iteration of the do/while loop of `write_unsigned_int`:
emit the low 7 bits, set bit 7 if more data follows, shift right by 7.
The `fuel` argument only makes the recursion structural; `write_unsigned_int`
supplies enough fuel for the loop to run to completion. -/
def writeUnsignedAux : Nat → Nat → List Nat
  | 0, _ => []
  | fuel + 1, value =>
    let c := value &&& 0x7f
    let value' := value >>> 7
    if value' = 0 then [c] else (c ||| 0x80) :: writeUnsignedAux fuel value'

/-- Model of `write_unsigned_int(std::streambuf&, uint64_t)`: the list of
bytes the loop emits. -/
def write_unsigned_int (value : Nat) : List Nat :=
  writeUnsignedAux (value + 1) value

/-- Loop of `read_unsigned_int`: `byte` is the loop counter, `result` the
accumulator.  `result |= uint64_t(c & 0x7f) << (byte * 7)` is a 64-bit
operation, hence the reduction `% 2 ^ 64` of the shifted summand.
`none` models returning `false` after `sbumpc()` hit end-of-stream (at that
point the whole stream has been consumed). -/
def readUnsignedAux : List Nat → Nat → Nat → Option (Nat × List Nat)
  | [], _, _ => none
  | c :: rest, byte, result =>
    let result' := result ||| ((c &&& 0x7f) <<< (byte * 7)) % 2 ^ 64
    if c &&& 0x80 = 0 then some (result', rest)
    else readUnsignedAux rest (byte + 1) result'

/-- Model of `read_unsigned_int(std::streambuf&, uint64_t&)`.
`some (value, rest)` is a `true` return with `value` stored and `rest` the
unread bytes; `none` is a `false` return (the output parameter is not
assigned in that case). -/
def read_unsigned_int (input : List Nat) : Option (Nat × List Nat) :=
  readUnsignedAux input 0 0

/-- The zigzag transform of `write_signed_int`:
negative `v` becomes `(uint64_t(-(v+1)) << 1) | 1`, non-negative `v`
becomes `v << 1` (exact because in-range `v` makes both fit in 64 bits). -/
def zigzag (value : Int) : Nat :=
  if value < 0 then ((-(value + 1)).toNat <<< 1) ||| 1
  else value.toNat <<< 1

/-- Model of `write_signed_int(std::streambuf&, int64_t)`. -/
def write_signed_int (value : Int) : List Nat :=
  write_unsigned_int (zigzag value)

/-- Inverse zigzag mapping used by `read_signed_int`. -/
def unzigzag (decoded : Nat) : Int :=
  if decoded &&& 1 = 1 then -((decoded >>> 1 : Nat) : Int) - 1
  else ((decoded >>> 1 : Nat) : Int)

/-- Model of `read_signed_int(std::streambuf&, int64_t&)`.  The local
`decoded` starts at 0 and the zigzag decode runs unconditionally, so on
failure the output parameter is deterministically assigned `unzigzag 0 = 0`;
the `Bool` component is the return status. -/
def read_signed_int (input : List Nat) : Int × List Nat × Bool :=
  match read_unsigned_int input with
  | none => (unzigzag 0, [], false)
  | some (decoded, rest) => (unzigzag decoded, rest, true)

/-- Number of binary digits of a natural number (`bit_length` in the spec:
0 for 0, otherwise one more than the bit length of `n / 2`).  Defined with
structural fuel so that it evaluates by `decide` on concrete inputs. -/
def bitLengthAux : Nat → Nat → Nat
  | 0, _ => 0
  | fuel + 1, n => if n = 0 then 0 else bitLengthAux fuel (n / 2) + 1

/-- Bit length of a natural number. -/
def bitLength (n : Nat) : Nat :=
  bitLengthAux (n + 1) n

/-! ### Leaf reads of `BinaryDeserialize` (`traverse.h`, lines 281-352) -/

/-- Message built by the arithmetic-leaf reads on a failed varint decode. -/
def numberError : String :=
  "Error: not enough data in buffer to read number\n"

/-- Model of `visit(BinaryDeserialize&, T&)` for unsigned arithmetic `T` of
`w` bits.  On a failed read the C++ code still executes
`value = static_cast<T>(wide_value)` with `wide_value` never assigned, so
the stored value is the truncation of the arbitrary stack contents `junk`. -/
def visitDeserializeUnsigned (w : Nat) (junk : Nat) (input : List Nat) :
    Nat × List Nat × List String :=
  match read_unsigned_int input with
  | none => (junk % 2 ^ w, [], [numberError])
  | some (wide, rest) => (wide % 2 ^ w, rest, [])

/-- The conversion `static_cast<T>(int64_t)` to a signed integer type of `w`
bits, modelled as the (gcc/two's-complement) modular wrap; it is the
identity on in-range values. -/
def castToSigned (w : Nat) (i : Int) : Int :=
  (i + 2 ^ (w - 1)) % 2 ^ w - 2 ^ (w - 1)

/-- Model of `visit(BinaryDeserialize&, T&)` for signed arithmetic `T` of
`w` bits.  Unlike the unsigned case, `read_signed_int` always assigns its
output parameter (0 on failure), so no junk is involved. -/
def visitDeserializeSigned (w : Nat) (input : List Nat) :
    Int × List Nat × List String :=
  let (wide, rest, ok) := read_signed_int input
  (castToSigned w wide, rest, if ok then [] else [numberError])

/-- Model of the unsigned-arithmetic visit at `T = bool`:
`static_cast<bool>` maps a value to 0 or 1 by comparison with zero. -/
def visitDeserializeBool (junk : Nat) (input : List Nat) :
    Nat × List Nat × List String :=
  match read_unsigned_int input with
  | none => ((if junk = 0 then 0 else 1), [], [numberError])
  | some (wide, rest) => ((if wide = 0 then 0 else 1), rest, [])

/-- Message built when the string length varint cannot be decoded. -/
def stringSizeError : String :=
  "Error: not enough data in buffer to read string size\n"

/-- Message built when the string body is shorter than its declared size.
The C++ code prints `string.size() + bytes_actually_read` after having
already appended the final chunk to the string. -/
def stringBodyError (size found : Nat) : String :=
  "Error: expected " ++ toString size ++ " bytes in string but only found "
    ++ toString found ++ "\n"

/-- The block-copy loop of `visit(BinaryDeserialize&, std::string&)`:
while bytes remain to be read and the source is not at end-of-stream, read
`min(remaining, 1024)` bytes with `sgetn` (which delivers what is actually
available), append them to the string, and report an error if the chunk came
up short.  `fuel` makes the recursion structural; each iteration consumes at
least one input byte, so `input.length + 1` fuel always suffices. -/
def readStringChunksAux : Nat → List Nat → List Nat → Nat → Nat →
    List Nat × List Nat × List String
  | 0, input, acc, _, _ => (acc, input, [])
  | fuel + 1, input, acc, remaining, size =>
    if remaining > 0 ∧ input ≠ [] then
      let toRead := min remaining 1024
      let chunk := input.take toRead
      let acc' := acc ++ chunk
      if chunk.length < toRead then
        (acc', input.drop chunk.length, [stringBodyError size (acc'.length + chunk.length)])
      else
        readStringChunksAux fuel (input.drop toRead) acc' (remaining - toRead) size
    else (acc, input, [])

/-- Model of `visit(BinaryDeserialize&, std::string&)`.  On a failed size
read the function returns before touching the string, so the prior contents
survive; on success the string is first cleared (`string.resize(0)`) and the
body is copied in bounded chunks. -/
def visitDeserializeString (prior : List Nat) (input : List Nat) :
    List Nat × List Nat × List String :=
  match read_unsigned_int input with
  | none => (prior, [], [stringSizeError])
  | some (size, rest) => readStringChunksAux (rest.length + 1) rest [] size size

/-- Message built when the vector count varint cannot be decoded. -/
def vectorSizeError : String :=
  "Error: not enough data in buffer to read vector size\n"

/-- Message built when fewer vector elements than declared could be read. -/
def vectorCountError (size found : Nat) : String :=
  "Error: expected " ++ toString size ++ " elements in vector but only found "
    ++ toString found ++ "\n"

/-- Message built by the base case of `deserialize_variant_helper`. -/
def variantRangeError (which types : Nat) : String :=
  "Error: tried to deserialize variant " ++ toString which
    ++ " but there were only " ++ toString types ++ " types.\n"

/-! ### The char overloads (`traverse.h`, lines 244-250 and 301-311)

`char` and `signed char` are always serialized through
`static_cast<unsigned char>` and deserialized by reading an
`unsigned char` and casting back, so the wire format is a function of the
char's byte pattern only, independent of whether plain `char` is signed. -/

/-- The value `static_cast<unsigned char>(c)` of a char object whose
numeric value is `c` (on a signed-char platform `c` is in [-128,128), on an
unsigned-char platform in [0,256)); `%` on `Int` is the Euclidean remainder,
which is exactly the modular wrap of the cast. -/
def charToUnsignedByte (c : Int) : Nat :=
  (c % 256).toNat

/-- Model of `visit(BinarySerialize&, const char&)` (and the identical
`signed char` overload): cast to unsigned char, then the unsigned
arithmetic visit emits the varint.  The platform signedness of `char` does
not appear: the wire bytes depend only on the byte pattern. -/
def serializeCharValue (c : Int) : List Nat :=
  write_unsigned_int (charToUnsignedByte c)

/-- The conversion `static_cast<char>(unsigned char)`:
on a signed-char platform values ≥ 128 wrap to negatives. -/
def castToChar (signedChar : Bool) (u : Nat) : Int :=
  if signedChar ∧ 128 ≤ u then (u : Int) - 256 else (u : Int)

/-- The numeric range of a char object on the given platform flavor. -/
def charInRange (signedChar : Bool) (c : Int) : Prop :=
  if signedChar then -128 ≤ c ∧ c < 128 else 0 ≤ c ∧ c < 256

/-- Model of `visit(BinaryDeserialize&, char&)` (and the `signed char`
overload): read an `unsigned char` via the unsigned arithmetic visit, then
cast it back to the platform's char. -/
def visitDeserializeChar (signedChar : Bool) (junk : Nat) (input : List Nat) :
    Int × List Nat × List String :=
  let (u, rest, errs) := visitDeserializeUnsigned 8 junk input
  (castToChar signedChar u, rest, errs)

/-! ### The supported type shapes and their values

The C++ visitors dispatch on the static type of the visited object.  `Ty` is
that static type: fixed-width unsigned/signed integers, `bool`, `char`,
enums over an underlying integer type, `float`/`double`, `std::string`,
`std::vector`, `TRAVERSE_STRUCT` records (with their name and field labels),
and `mapbox::util::variant`.  `Value` is the runtime value of such an
object. -/

inductive Ty where
  | uintTy (w : Nat)
  | sintTy (w : Nat)
  | boolTy
  | charTy
  | enumUTy (w : Nat)
  | enumSTy (w : Nat)
  | floatTy
  | strTy
  | vecTy (elem : Ty)
  | recordTy (name : String) (fields : List (String × Ty))
  | variantTy (alts : List Ty)

inductive Value where
  | vnat (n : Nat)
  | vint (i : Int)
  | vfloat (q : ℚ)
  | vstr (bytes : List Nat)
  | vvec (elems : List Value)
  | vrec (fields : List Value)
  | vvar (which : Nat) (payload : Value)

mutual
/-- Value-initialization (`T()`), as performed by `vector::emplace_back()`
for new elements and by `variant::set<First>()` for a selected alternative:
zero for arithmetic types, empty for strings and vectors, fieldwise for
records; a default-constructed mapbox variant holds a default-constructed
value of its first alternative. -/
def defaultValue : Ty → Value
  | .uintTy _ => .vnat 0
  | .sintTy _ => .vint 0
  | .boolTy => .vnat 0
  | .charTy => .vnat 0
  | .enumUTy _ => .vnat 0
  | .enumSTy _ => .vint 0
  | .floatTy => .vfloat (Rat.ofInt 0)
  | .strTy => .vstr []
  | .vecTy _ => .vvec []
  | .recordTy _ fields => .vrec (defaultFields fields)
  | .variantTy [] => .vvar 0 (.vrec [])
  | .variantTy (a :: _) => .vvar 0 (defaultValue a)

/-- Default values of a record's fields, in declaration order. -/
def defaultFields : List (String × Ty) → List Value
  | [] => []
  | (_, t) :: fs => defaultValue t :: defaultFields fs
end

/-- The conversion `int64_t` ← `float` performed by
`write_signed_int(out, value)` when `value` is a floating-point object:
truncation toward zero.  Floating point values are modelled as the rational
they represent exactly. -/
def floatToInt64 (q : ℚ) : Int :=
  q.num.tdiv q.den

/-- Model of the signed-arithmetic visit of `BinaryDeserialize` at a
floating-point destination: read an `int64_t` and convert
(`static_cast<float>` is exact on the small integers used here). -/
def visitDeserializeFloat (input : List Nat) :
    ℚ × List Nat × List String :=
  let (wide, rest, ok) := read_signed_int input
  (Rat.ofInt wide, rest, if ok then [] else [numberError])

/-! ### `BinarySerialize` (`traverse.h` lines 226-271, `traverse-variant.h` lines 49-54)

One equation per C++ `visit` overload.  The unsigned-arithmetic overload
computes `uint64_t wide_value = uint64_t(value)`, exact for every value of
an unsigned type of at most 64 bits, so the equation emits the value's
varint directly; enums are serialized as their underlying integer type;
floats go through the signed overload via the implicit conversion to
`int64_t`.  A variant emits `unsigned which = value.which()` through the
unsigned visit, then — via `apply_visitor`, modelled by walking the
alternative list to position `which` — the payload of the selected
alternative.  The catch-alls cover type/value mismatches that cannot arise
from a C++ object. -/

mutual
/-- Model of `visit(BinarySerialize&, const T&)`, dispatched on the static
type of the visited object. -/
def serializeValue : Ty → Value → List Nat
  | .uintTy _, v => match v with | .vnat n => write_unsigned_int n | _ => []
  | .sintTy _, v => match v with | .vint i => write_signed_int i | _ => []
  | .boolTy, v => match v with | .vnat n => write_unsigned_int n | _ => []
  | .charTy, v => match v with | .vnat b => write_unsigned_int b | _ => []
  | .enumUTy _, v => match v with | .vnat n => write_unsigned_int n | _ => []
  | .enumSTy _, v => match v with | .vint i => write_signed_int i | _ => []
  | .floatTy, v =>
    match v with | .vfloat q => write_signed_int (floatToInt64 q) | _ => []
  | .strTy, v => match v with | .vstr s => write_unsigned_int s.length ++ s | _ => []
  | .vecTy t, v =>
    match v with
    | .vvec elems => write_unsigned_int elems.length ++ serializeElems t elems
    | _ => []
  | .recordTy _ fields, v =>
    match v with | .vrec vals => serializeFields fields vals | _ => []
  | .variantTy alts, v =>
    match v with
    | .vvar which payload =>
      write_unsigned_int which ++ serializeVariantPayload alts which payload
    | _ => []
termination_by t _ => (sizeOf t, 0)
decreasing_by all_goals (simp_wf; omega)

/-- Serialization of a vector's elements in order. -/
def serializeElems : Ty → List Value → List Nat
  | _, [] => []
  | t, v :: vs => serializeValue t v ++ serializeElems t vs
termination_by t vs => (sizeOf t, vs.length + 1)
decreasing_by all_goals (simp_wf; omega)

/-- Serialization of a record's fields in declaration order (the generic
`StructVisitor` visits each field's value; labels are not written). -/
def serializeFields : List (String × Ty) → List Value → List Nat
  | [], _ => []
  | (_, t) :: fs, vs =>
    serializeValue t (vs.headD (defaultValue t)) ++ serializeFields fs vs.tail
termination_by fs _ => (sizeOf fs, 0)
decreasing_by all_goals (simp_wf; omega)

/-- The `apply_visitor` dispatch of the variant serializer: serialize the
payload with the visit of alternative number `which`. -/
def serializeVariantPayload : List Ty → Nat → Value → List Nat
  | [], _, _ => []
  | a :: _, 0, payload => serializeValue a payload
  | _ :: rest, k + 1, payload => serializeVariantPayload rest k payload
termination_by alts _ _ => (sizeOf alts, 0)
decreasing_by all_goals (simp_wf; omega)
end

/-- The prior contents of a string destination (the bytes the `std::string`
holds before the visit). -/
def priorString : Value → List Nat
  | .vstr s => s
  | _ => []

/-- The prior field values of a record destination. -/
def priorFields : Value → List Value
  | .vrec vs => vs
  | _ => []

/-! ### `BinaryDeserialize` (`traverse.h` lines 274-372, `traverse-variant.h` lines 57-84)

The reader owns an accumulating error sink (`std::stringstream errors`),
modelled as the `List String` component of every result; `Errors()` is the
concatenation of that list, empty on success.  `prior` is the destination
object being overwritten in place; `junk` stands for the contents of the
uninitialized `uint64_t wide_value` local of the unsigned-number visit (see
above). -/

mutual
/-- Model of `visit(BinaryDeserialize&, T&)`, dispatched on the static type
of the destination.  Returns the new destination value, the unread input,
and the diagnostic lines appended to the error sink. -/
def deserializeValue : Ty → Value → List Nat → Nat → Value × List Nat × List String
  | .uintTy w, _, input, junk =>
    Prod.map Value.vnat id (visitDeserializeUnsigned w junk input)
  | .sintTy w, _, input, _ =>
    Prod.map Value.vint id (visitDeserializeSigned w input)
  | .boolTy, _, input, junk =>
    Prod.map Value.vnat id (visitDeserializeBool junk input)
  | .charTy, _, input, junk =>
    Prod.map Value.vnat id (visitDeserializeUnsigned 8 junk input)
  | .enumUTy w, _, input, junk =>
    Prod.map Value.vnat id (visitDeserializeUnsigned w junk input)
  | .enumSTy w, _, input, _ =>
    Prod.map Value.vint id (visitDeserializeSigned w input)
  | .floatTy, _, input, _ =>
    Prod.map Value.vfloat id (visitDeserializeFloat input)
  | .strTy, prior, input, _ =>
    Prod.map Value.vstr id (visitDeserializeString (priorString prior) input)
  | .vecTy t, prior, input, junk =>
    match read_unsigned_int input with
    | none => (prior, [], [vectorSizeError])
    | some (size, rest) =>
      let r := deserializeElems t size rest junk
      (.vvec r.1, r.2.1,
        r.2.2 ++ if r.1.length = size then [] else [vectorCountError size r.1.length])
  | .recordTy _ fields, prior, input, junk =>
    let r := deserializeFields fields (priorFields prior) input junk
    (.vrec r.1, r.2.1, r.2.2)
  | .variantTy alts, prior, input, junk =>
    let w := visitDeserializeUnsigned 32 junk input
    let r := deserializeVariantHelper alts w.1 0 prior w.2.1 junk
    (r.1, r.2.1, w.2.2 ++ r.2.2)
termination_by t _ _ _ => (sizeOf t, 0)
decreasing_by all_goals (simp_wf; omega)

/-- The element loop of the vector visit: while elements remain to be read
and the source is not at end-of-stream, emplace a value-initialized element
and deserialize into it.  Returns the elements read (the `i != size` count
check happens in the caller). -/
def deserializeElems : Ty → Nat → List Nat → Nat → List Value × List Nat × List String
  | _, 0, input, _ => ([], input, [])
  | t, count + 1, input, junk =>
    if input = [] then ([], input, [])
    else
      let r := deserializeValue t (defaultValue t) input junk
      let rs := deserializeElems t count r.2.1 junk
      (r.1 :: rs.1, rs.2.1, r.2.2 ++ rs.2.2)
termination_by t count _ _ => (sizeOf t, count + 1)
decreasing_by all_goals (simp_wf; omega)

/-- The field visits generated by `TRAVERSE_STRUCT`, in declaration order;
each field deserializes into the corresponding field of the prior record
value (`headD` supplies a default for the arity mismatch that cannot arise
from a C++ object). -/
def deserializeFields : List (String × Ty) → List Value → List Nat → Nat →
    List Value × List Nat × List String
  | [], _, input, _ => ([], input, [])
  | (_, t) :: fs, ps, input, junk =>
    let r := deserializeValue t (ps.headD (defaultValue t)) input junk
    let rs := deserializeFields fs ps.tail r.2.1 junk
    (r.1 :: rs.1, rs.2.1, r.2.2 ++ rs.2.2)
termination_by fs _ _ _ => (sizeOf fs, 0)
decreasing_by all_goals (simp_wf; omega)

/-- Model of `deserialize_variant_helper`: try each alternative in turn;
when `which` matches the current `index`, select that alternative with
`value.set<First>()` (value-initialization) and deserialize into it; if no
alternative is left, append the range error and leave the value as it was. -/
def deserializeVariantHelper : List Ty → Nat → Nat → Value → List Nat → Nat →
    Value × List Nat × List String
  | [], which, index, value, input, _ => (value, input, [variantRangeError which index])
  | first :: rest, which, index, value, input, junk =>
    if which = index then
      let r := deserializeValue first (defaultValue first) input junk
      (.vvar which r.1, r.2.1, r.2.2)
    else deserializeVariantHelper rest which (index + 1) value input junk
termination_by alts _ _ _ _ _ => (sizeOf alts, 0)
decreasing_by all_goals (simp_wf; omega)
end

/-! ### `CoutWriter` debug rendering (`traverse.h` lines 92-150,
`traverse-variant.h` lines 29-39)

The observational equality of the spec: two values are observationally
equal when their `CoutWriter` renderings coincide.  Arithmetic values print
in decimal (`bool` as 0/1, enums through their underlying integer), `char`
prints as the character itself, strings print quoted with `std::quoted`
(escaping `"` and `\`), vectors as `[a, b]`, records as
`Name\x7bfield:value, ...\x7d`, and a variant prints its contents via
`apply_visitor`. -/

/-- Rendering of `std::quoted` string contents: each byte as its character,
with `"` and `\` preceded by a backslash. -/
def renderStringBytes : List Nat → String
  | [] => ""
  | b :: bs =>
    (if b = 34 ∨ b = 92 then "\\" ++ (Char.ofNat b).toString
     else (Char.ofNat b).toString) ++ renderStringBytes bs

mutual
/-- Model of the `CoutWriter` visit: the text `operator <<` produces. -/
def render : Ty → Value → String
  | .uintTy _, v => match v with | .vnat n => toString n | _ => ""
  | .sintTy _, v => match v with | .vint i => toString i | _ => ""
  | .boolTy, v => match v with | .vnat n => toString n | _ => ""
  | .charTy, v => match v with | .vnat b => (Char.ofNat b).toString | _ => ""
  | .enumUTy _, v => match v with | .vnat n => toString n | _ => ""
  | .enumSTy _, v => match v with | .vint i => toString i | _ => ""
  | .floatTy, v => match v with | .vfloat q => toString q | _ => ""
  | .strTy, v =>
    match v with | .vstr s => "\"" ++ renderStringBytes s ++ "\"" | _ => ""
  | .vecTy t, v =>
    match v with | .vvec elems => "[" ++ renderElems t elems ++ "]" | _ => ""
  | .recordTy name fields, v =>
    match v with
    | .vrec vals => name ++ "\x7b" ++ renderFields fields vals ++ "\x7d"
    | _ => ""
  | .variantTy alts, v =>
    match v with
    | .vvar which payload => renderVariantPayload alts which payload
    | _ => ""
termination_by t _ => (sizeOf t, 0)
decreasing_by all_goals (simp_wf; omega)

/-- Rendering of vector elements, comma separated. -/
def renderElems : Ty → List Value → String
  | _, [] => ""
  | t, [v] => render t v
  | t, v :: vs => render t v ++ ", " ++ renderElems t vs
termination_by t vs => (sizeOf t, vs.length + 1)
decreasing_by all_goals (simp_wf; omega)

/-- Rendering of record fields as `label:value`, comma separated. -/
def renderFields : List (String × Ty) → List Value → String
  | [], _ => ""
  | [(l, t)], vs => l ++ ":" ++ render t (vs.headD (defaultValue t))
  | (l, t) :: fs, vs =>
    l ++ ":" ++ render t (vs.headD (defaultValue t)) ++ ", " ++ renderFields fs vs.tail
termination_by fs _ => (sizeOf fs, 0)
decreasing_by all_goals (simp_wf; omega)

/-- The `apply_visitor` dispatch of the variant rendering. -/
def renderVariantPayload : List Ty → Nat → Value → String
  | [], _, _ => ""
  | a :: _, 0, payload => render a payload
  | _ :: rest, k + 1, payload => renderVariantPayload rest k payload
termination_by alts _ _ => (sizeOf alts, 0)
decreasing_by all_goals (simp_wf; omega)
end

/-! ### Well-formed C++ values

`WF t v` says that `v` is a value a C++ object of static type `t` can hold:
integer widths are at most 64 bits and values are in range, a char is one
byte, string/vector sizes fit `uint64_t` (`size()` returns `size_t`), a
variant's discriminant names a declared alternative and fits `unsigned`.
Floating point leaves have no rule: the encoder truncates them to `int64_t`,
which is lossy, so they are excluded from the round-trip statement.  The
vector rule additionally requires every element to serialize to at least one
byte: an element whose encoding is empty (an empty record) makes the element
loop's end-of-stream test fire spuriously when the vector sits at the end of
the stream. -/

inductive WF : Ty → Value → Prop where
  | uint {w n : Nat} : w ≤ 64 → n < 2 ^ w → WF (.uintTy w) (.vnat n)
  | sint {w : Nat} {i : Int} : 1 ≤ w → w ≤ 64 → -(2 ^ (w - 1)) ≤ i →
      i < 2 ^ (w - 1) → WF (.sintTy w) (.vint i)
  | bool {n : Nat} : n < 2 → WF .boolTy (.vnat n)
  | char {b : Nat} : b < 256 → WF .charTy (.vnat b)
  | enumU {w n : Nat} : w ≤ 64 → n < 2 ^ w → WF (.enumUTy w) (.vnat n)
  | enumS {w : Nat} {i : Int} : 1 ≤ w → w ≤ 64 → -(2 ^ (w - 1)) ≤ i →
      i < 2 ^ (w - 1) → WF (.enumSTy w) (.vint i)
  | str {s : List Nat} : s.length < 2 ^ 64 → (∀ b ∈ s, b < 256) →
      WF .strTy (.vstr s)
  | vec {t : Ty} {elems : List Value} : elems.length < 2 ^ 64 →
      (∀ e ∈ elems, WF t e) → (∀ e ∈ elems, serializeValue t e ≠ []) →
      WF (.vecTy t) (.vvec elems)
  | record {name : String} {fields : List (String × Ty)} {vals : List Value} :
      vals.length = fields.length →
      (∀ p ∈ fields.zip vals, WF p.1.2 p.2) →
      WF (.recordTy name fields) (.vrec vals)
  | variant {alts : List Ty} {which : Nat} {a : Ty} {payload : Value} :
      which < 2 ^ 32 → alts[which]? = some a → WF a payload →
      WF (.variantTy alts) (.vvar which payload)

/-! ### Concrete sample data used by witnesses and counterexamples -/

/-- A record type exercising an enum, a string, a vector and a variant,
shaped like the `Polygon` struct of the test suite. -/
def sampleTy : Ty :=
  .recordTy "Polygon"
    [("color", .enumUTy 32), ("name", .strTy),
     ("points", .vecTy (.sintTy 32)), ("choice", .variantTy [.uintTy 8, .strTy])]

/-- A sample well-formed value of `sampleTy`. -/
def sampleValue : Value :=
  .vrec [.vnat 1, .vstr [85, 70, 79], .vvec [.vint 3, .vint (-5)],
         .vvar 1 (.vstr [65])]

/-- The rational 1/2 (the value of the C++ literal `0.5f`, which `float`
represents exactly). -/
def oneHalf : ℚ :=
  ⟨1, 2, by decide, by simp [Nat.coprime_one_left 2]⟩

/-! ## Lemmas

First the varint codec: bitwise bridges, loop unfolding, and the
read/write round trip. -/

theorem and_two_pow_sub_one_eq_mod_pow (n k : Nat) :
    n &&& (2 ^ k - 1) = n % 2 ^ k := by
  apply Nat.eq_of_testBit_eq
  intro i
  rw [Nat.testBit_and, Nat.testBit_two_pow_sub_one, Nat.testBit_mod_two_pow]
  exact Bool.and_comm _ _

theorem and_127_eq_mod (n : Nat) : n &&& 127 = n % 128 := by
  have h := and_two_pow_sub_one_eq_mod_pow n 7
  norm_num at h
  exact h

theorem lor_mul_two_pow (a b k : Nat) (h : a < 2 ^ k) :
    a ||| b * 2 ^ k = a + b * 2 ^ k := by
  rw [mul_comm b]
  apply Nat.eq_of_testBit_eq
  intro i
  rw [Nat.testBit_or, Nat.add_comm, Nat.testBit_mul_pow_two_add b h i,
    Nat.testBit_mul_pow_two]
  by_cases hik : i < k
  · have hk : ¬ k ≤ i := by omega
    simp [hik, hk]
  · have hk : k ≤ i := by omega
    have ha : a.testBit i = false :=
      Nat.testBit_lt_two_pow (lt_of_lt_of_le h (Nat.pow_le_pow_right (by omega) hk))
    simp [hik, hk, ha]

theorem writeUnsignedAux_congr : ∀ f g n : Nat, n < f → n < g →
    writeUnsignedAux f n = writeUnsignedAux g n := by
  intro f
  induction f with
  | zero => intro g n hf; exact absurd hf (Nat.not_lt_zero n)
  | succ f ih =>
    intro g n hf hg
    cases g with
    | zero => exact absurd hg (Nat.not_lt_zero n)
    | succ g =>
      simp only [writeUnsignedAux]
      have hs : n >>> 7 = n / 128 := by
        rw [Nat.shiftRight_eq_div_pow]
      by_cases h0 : n >>> 7 = 0
      · rw [if_pos h0, if_pos h0]
      · rw [if_neg h0, if_neg h0]
        congr 1
        rw [hs] at h0 ⊢
        have h128 : 128 ≤ n := by
          by_contra hc
          exact h0 (Nat.div_eq_of_lt (by omega))
        have hlt := Nat.div_lt_self (show 0 < n by omega) (show 1 < 128 by omega)
        exact ih _ _ (by omega) (by omega)

theorem write_unsigned_int_unfold (n : Nat) :
    write_unsigned_int n =
      if n < 128 then [n] else (n % 128 + 128) :: write_unsigned_int (n / 128) := by
  show writeUnsignedAux (n + 1) n = _
  simp only [writeUnsignedAux]
  have hs : n >>> 7 = n / 128 := by
    rw [Nat.shiftRight_eq_div_pow]
  have ha : n &&& 127 = n % 128 := and_127_eq_mod n
  rw [hs, ha]
  by_cases h : n < 128
  · rw [if_pos (show n / 128 = 0 by omega), if_pos h, Nat.mod_eq_of_lt h]
  · have h0 : ¬ n / 128 = 0 := by omega
    rw [if_neg h0, if_neg h]
    have hor : n % 128 ||| 128 = n % 128 + 128 := by
      have h1 := lor_mul_two_pow (n % 128) 1 7 (by omega)
      norm_num at h1
      exact h1
    rw [hor]
    congr 1
    have hlt := Nat.div_lt_self (show 0 < n by omega) (show 1 < 128 by omega)
    exact writeUnsignedAux_congr _ _ _ (by omega) (by omega)

theorem write_unsigned_int_ne_nil (n : Nat) : write_unsigned_int n ≠ [] := by
  rw [write_unsigned_int_unfold]
  by_cases h : n < 128 <;> simp [h]

theorem readUnsignedAux_write (n : Nat) :
    ∀ k acc rest, acc < 2 ^ (k * 7) → acc + n * 2 ^ (k * 7) < 2 ^ 64 →
      readUnsignedAux (write_unsigned_int n ++ rest) k acc
        = some (acc + n * 2 ^ (k * 7), rest) := by
  induction n using Nat.strong_induction_on with
  | _ n ih =>
    intro k acc rest hacc hbound
    have hE : 0 < 2 ^ (k * 7) := Nat.pos_pow_of_pos _ (by omega)
    rw [write_unsigned_int_unfold n]
    by_cases h : n < 128
    · rw [if_pos h]
      simp only [List.cons_append, readUnsignedAux]
      have ha : n &&& 127 = n := by
        have hfact : ∀ a < 128, a &&& 127 = a := by decide
        exact hfact n h
      have hb : n &&& 128 = 0 := by
        have hfact : ∀ a < 128, a &&& 128 = 0 := by decide
        exact hfact n h
      have hsh : n <<< (k * 7) = n * 2 ^ (k * 7) := Nat.shiftLeft_eq n (k * 7)
      have hmod : n * 2 ^ (k * 7) % 2 ^ 64 = n * 2 ^ (k * 7) :=
        Nat.mod_eq_of_lt (by omega)
      rw [ha, hb, hsh, hmod, if_pos rfl, lor_mul_two_pow acc n _ hacc]
      simp
    · rw [if_neg h]
      simp only [List.cons_append, readUnsignedAux]
      have hm : n % 128 < 128 := Nat.mod_lt n (by omega)
      have ha : (n % 128 + 128) &&& 127 = n % 128 := by
        have hfact : ∀ a < 128, (a + 128) &&& 127 = a := by decide
        exact hfact _ hm
      have hb : (n % 128 + 128) &&& 128 = 128 := by
        have hfact : ∀ a < 128, (a + 128) &&& 128 = 128 := by decide
        exact hfact _ hm
      have hsh : (n % 128) <<< (k * 7) = n % 128 * 2 ^ (k * 7) :=
        Nat.shiftLeft_eq _ (k * 7)
      have hle : n % 128 * 2 ^ (k * 7) ≤ n * 2 ^ (k * 7) :=
        Nat.mul_le_mul_right _ (Nat.mod_le n 128)
      have hmod : n % 128 * 2 ^ (k * 7) % 2 ^ 64 = n % 128 * 2 ^ (k * 7) :=
        Nat.mod_eq_of_lt (by omega)
      rw [ha, hb, hsh, hmod, if_neg (by omega), lor_mul_two_pow acc _ _ hacc]
      have hdiv := Nat.div_lt_self (show 0 < n by omega) (show 1 < 128 by omega)
      have hpow : (2 : Nat) ^ ((k + 1) * 7) = 2 ^ (k * 7) * 128 := by
        rw [show (k + 1) * 7 = k * 7 + 7 by ring, pow_add]
        norm_num
      have hsplit : n = 128 * (n / 128) + n % 128 := (Nat.div_add_mod n 128).symm
      have heq : acc + n % 128 * 2 ^ (k * 7) + n / 128 * 2 ^ ((k + 1) * 7)
          = acc + n * 2 ^ (k * 7) := by
        rw [hpow]
        calc acc + n % 128 * 2 ^ (k * 7) + n / 128 * (2 ^ (k * 7) * 128)
            = acc + (128 * (n / 128) + n % 128) * 2 ^ (k * 7) := by ring
          _ = acc + n * 2 ^ (k * 7) := by rw [← hsplit]
      have hacc' : acc + n % 128 * 2 ^ (k * 7) < 2 ^ ((k + 1) * 7) := by
        rw [hpow]
        have h1 : n % 128 * 2 ^ (k * 7) ≤ 127 * 2 ^ (k * 7) :=
          Nat.mul_le_mul_right _ (by omega)
        have h2 : acc + n % 128 * 2 ^ (k * 7) < 2 ^ (k * 7) + 127 * 2 ^ (k * 7) :=
          Nat.add_lt_add_of_lt_of_le hacc h1
        have h3 : (2 : Nat) ^ (k * 7) + 127 * 2 ^ (k * 7) = 2 ^ (k * 7) * 128 := by
          ring
        omega
      have hbound' : acc + n % 128 * 2 ^ (k * 7)
          + n / 128 * 2 ^ ((k + 1) * 7) < 2 ^ 64 := by
        rw [heq]; exact hbound
      have hih := ih (n / 128) hdiv (k + 1) _ rest hacc' hbound'
      rw [List.append_eq, hih, heq]

theorem read_write_unsigned (x : Nat) (rest : List Nat) (h : x < 2 ^ 64) :
    read_unsigned_int (write_unsigned_int x ++ rest) = some (x, rest) := by
  have h0 := readUnsignedAux_write x 0 0 rest (by norm_num) (by simpa using h)
  simpa [read_unsigned_int] using h0

theorem zigzag_lt (x : Int) (h1 : -(2 ^ 63) ≤ x) (h2 : x < 2 ^ 63) :
    zigzag x < 2 ^ 64 := by
  unfold zigzag
  by_cases h : x < 0
  · rw [if_pos h]
    have hsh : (-(x + 1)).toNat <<< 1 = (-(x + 1)).toNat * 2 :=
      Nat.shiftLeft_eq _ 1
    have hor : 1 ||| (-(x + 1)).toNat * 2 = 1 + (-(x + 1)).toNat * 2 := by
      have h3 := lor_mul_two_pow 1 (-(x + 1)).toNat 1 (by norm_num)
      rw [pow_one] at h3
      exact h3
    rw [hsh, Nat.lor_comm, hor]
    omega
  · rw [if_neg h]
    have hsh : x.toNat <<< 1 = x.toNat * 2 := Nat.shiftLeft_eq _ 1
    rw [hsh]
    omega

theorem unzigzag_zigzag (x : Int) (h1 : -(2 ^ 63) ≤ x) (h2 : x < 2 ^ 63) :
    unzigzag (zigzag x) = x := by
  unfold zigzag unzigzag
  by_cases h : x < 0
  · rw [if_pos h]
    have hsh : (-(x + 1)).toNat <<< 1 = (-(x + 1)).toNat * 2 :=
      Nat.shiftLeft_eq _ 1
    have hor : 1 ||| (-(x + 1)).toNat * 2 = 1 + (-(x + 1)).toNat * 2 := by
      have h3 := lor_mul_two_pow 1 (-(x + 1)).toNat 1 (by norm_num)
      rw [pow_one] at h3
      exact h3
    rw [hsh, Nat.lor_comm, hor]
    have hodd : (1 + (-(x + 1)).toNat * 2) &&& 1 = 1 := by
      rw [Nat.and_one_is_mod]
      omega
    rw [if_pos hodd, Nat.shiftRight_succ, Nat.shiftRight_zero]
    have hhalf : (1 + (-(x + 1)).toNat * 2) / 2 = (-(x + 1)).toNat := by omega
    rw [hhalf]
    omega
  · rw [if_neg h]
    have hsh : x.toNat <<< 1 = x.toNat * 2 := Nat.shiftLeft_eq _ 1
    rw [hsh]
    have heven : x.toNat * 2 &&& 1 = 0 := by
      rw [Nat.and_one_is_mod]
      omega
    rw [if_neg (by omega)]
    rw [Nat.shiftRight_succ, Nat.shiftRight_zero]
    have hhalf : x.toNat * 2 / 2 = x.toNat := by omega
    rw [hhalf]
    omega

theorem read_write_signed (x : Int) (rest : List Nat)
    (h1 : -(2 ^ 63) ≤ x) (h2 : x < 2 ^ 63) :
    read_signed_int (write_signed_int x ++ rest) = (x, rest, true) := by
  unfold write_signed_int read_signed_int
  rw [read_write_unsigned _ _ (zigzag_lt x h1 h2)]
  simp [unzigzag_zigzag x h1 h2]

theorem bitLengthAux_congr : ∀ f g n : Nat, n < f → n < g →
    bitLengthAux f n = bitLengthAux g n := by
  intro f
  induction f with
  | zero => intro g n hf; exact absurd hf (Nat.not_lt_zero n)
  | succ f ih =>
    intro g n hf hg
    cases g with
    | zero => exact absurd hg (Nat.not_lt_zero n)
    | succ g =>
      simp only [bitLengthAux]
      by_cases h0 : n = 0
      · rw [if_pos h0, if_pos h0]
      · rw [if_neg h0, if_neg h0]
        have hlt := Nat.div_lt_self (show 0 < n by omega) (show 1 < 2 by omega)
        congr 1
        exact ih g (n / 2) (by omega) (by omega)

theorem bitLength_unfold (n : Nat) :
    bitLength n = if n = 0 then 0 else bitLength (n / 2) + 1 := by
  show bitLengthAux (n + 1) n = _
  simp only [bitLengthAux]
  by_cases h0 : n = 0
  · rw [if_pos h0, if_pos h0]
  · rw [if_neg h0, if_neg h0]
    have hlt := Nat.div_lt_self (show 0 < n by omega) (show 1 < 2 by omega)
    rw [bitLengthAux_congr n (n / 2 + 1) (n / 2) (by omega) (by omega)]
    rfl

theorem bitLength_pos (n : Nat) (h : n ≠ 0) : 1 ≤ bitLength n := by
  rw [bitLength_unfold, if_neg h]
  omega

theorem bitLength_div_128 (n : Nat) (h : 128 ≤ n) :
    bitLength n = bitLength (n / 128) + 7 := by
  have s1 : bitLength n = bitLength (n / 2) + 1 := by
    rw [bitLength_unfold, if_neg (by omega)]
  have s2 : bitLength (n / 2) = bitLength (n / 4) + 1 := by
    rw [bitLength_unfold, if_neg (by omega), show n / 2 / 2 = n / 4 by omega]
  have s3 : bitLength (n / 4) = bitLength (n / 8) + 1 := by
    rw [bitLength_unfold, if_neg (by omega), show n / 4 / 2 = n / 8 by omega]
  have s4 : bitLength (n / 8) = bitLength (n / 16) + 1 := by
    rw [bitLength_unfold, if_neg (by omega), show n / 8 / 2 = n / 16 by omega]
  have s5 : bitLength (n / 16) = bitLength (n / 32) + 1 := by
    rw [bitLength_unfold, if_neg (by omega), show n / 16 / 2 = n / 32 by omega]
  have s6 : bitLength (n / 32) = bitLength (n / 64) + 1 := by
    rw [bitLength_unfold, if_neg (by omega), show n / 32 / 2 = n / 64 by omega]
  have s7 : bitLength (n / 64) = bitLength (n / 128) + 1 := by
    rw [bitLength_unfold, if_neg (by omega), show n / 64 / 2 = n / 128 by omega]
  omega

theorem write_unsigned_int_length (n : Nat) :
    (write_unsigned_int n).length = max 1 ((bitLength n + 6) / 7) := by
  induction n using Nat.strong_induction_on with
  | _ n ih =>
    rw [write_unsigned_int_unfold n]
    by_cases h : n < 128
    · rw [if_pos h]
      have hb : bitLength n ≤ 7 := by
        have hfact : ∀ a < 128, bitLength a ≤ 7 := by decide
        exact hfact n h
      simp only [List.length_cons, List.length_nil]
      omega
    · rw [if_neg h]
      have hdiv := Nat.div_lt_self (show 0 < n by omega) (show 1 < 128 by omega)
      simp only [List.length_cons, ih (n / 128) hdiv]
      have hb := bitLength_div_128 n (by omega)
      have hp := bitLength_pos (n / 128) (by omega)
      omega

theorem castToSigned_eq (w : Nat) (i : Int) (hw : 1 ≤ w)
    (h1 : -(2 ^ (w - 1)) ≤ i) (h2 : i < 2 ^ (w - 1)) :
    castToSigned w i = i := by
  unfold castToSigned
  have hp : (2 : Int) ^ w = 2 ^ (w - 1) * 2 := by
    rw [← pow_succ]
    congr 1
    omega
  have hpos : (0 : Int) < 2 ^ (w - 1) := by positivity
  have h0 : 0 ≤ i + 2 ^ (w - 1) := by omega
  have hlt : i + 2 ^ (w - 1) < 2 ^ w := by omega
  rw [Int.emod_eq_of_lt h0 hlt]
  omega

theorem readStringChunks_exact : ∀ (fuel : Nat) (s rest acc : List Nat) (size : Nat),
    s.length < fuel →
    readStringChunksAux fuel (s ++ rest) acc s.length size = (acc ++ s, rest, []) := by
  intro fuel
  induction fuel with
  | zero => intro s rest acc size h; exact absurd h (Nat.not_lt_zero _)
  | succ fuel ih =>
    intro s rest acc size h
    simp only [readStringChunksAux]
    by_cases hs : s = []
    · subst hs
      rw [if_neg (by simp)]
      simp
    · have hlen : 0 < s.length := List.length_pos.2 hs
      have hne : s ++ rest ≠ [] := by simp [hs]
      rw [if_pos ⟨hlen, hne⟩]
      have htr : min s.length 1024 ≤ s.length := Nat.min_le_left _ _
      have htake : (s ++ rest).take (min s.length 1024) = s.take (min s.length 1024) :=
        List.take_append_of_le_length htr
      have hchlen : (s.take (min s.length 1024)).length = min s.length 1024 := by
        rw [List.length_take]
        omega
      rw [htake, hchlen, if_neg (by omega)]
      have hdrop : (s ++ rest).drop (min s.length 1024)
          = s.drop (min s.length 1024) ++ rest :=
        List.drop_append_of_le_length htr
      have hrem : s.length - min s.length 1024 = (s.drop (min s.length 1024)).length := by
        rw [List.length_drop]
      rw [hdrop, hrem,
        ih (s.drop (min s.length 1024)) rest (acc ++ s.take (min s.length 1024)) size
          (by rw [List.length_drop]; omega)]
      rw [List.append_assoc, List.take_append_drop]

theorem serializeVariantPayload_eq : ∀ (alts : List Ty) (k : Nat) (a : Ty)
    (payload : Value), alts[k]? = some a →
    serializeVariantPayload alts k payload = serializeValue a payload := by
  intro alts
  induction alts with
  | nil => intro k a payload h; simp at h
  | cons first rest ih =>
    intro k a payload h
    cases k with
    | zero =>
      simp only [List.getElem?_cons_zero, Option.some_inj] at h
      subst h
      simp [serializeVariantPayload]
    | succ k =>
      simp only [List.getElem?_cons_succ] at h
      simp only [serializeVariantPayload]
      exact ih k a payload h

theorem deserializeVariantHelper_miss : ∀ (alts : List Ty) (which index : Nat),
    index + alts.length ≤ which → ∀ (value : Value) (input : List Nat) (junk : Nat),
    deserializeVariantHelper alts which index value input junk
      = (value, input, [variantRangeError which (index + alts.length)]) := by
  intro alts
  induction alts with
  | nil =>
    intro which index h value input junk
    simp [deserializeVariantHelper]
  | cons a rest ih =>
    intro which index h value input junk
    simp only [List.length_cons] at h
    simp only [deserializeVariantHelper]
    rw [if_neg (by omega)]
    rw [ih which (index + 1) (by omega) value input junk]
    rw [show index + 1 + rest.length = index + (rest.length + 1) by omega]
    simp

theorem deserializeVariantHelper_hit : ∀ (alts : List Ty) (k index : Nat)
    (a : Ty) (payload : Value), alts[k]? = some a →
    (∀ (prior : Value) (rest : List Nat) (junk : Nat),
      deserializeValue a prior (serializeValue a payload ++ rest) junk
        = (payload, rest, [])) →
    ∀ (value : Value) (rest : List Nat) (junk : Nat),
    deserializeVariantHelper alts (index + k) index value
        (serializeValue a payload ++ rest) junk
      = (.vvar (index + k) payload, rest, []) := by
  intro alts
  induction alts with
  | nil => intro k index a payload h; simp at h
  | cons first restAlts ih =>
    intro k index a payload h hpay value rest junk
    cases k with
    | zero =>
      simp only [List.getElem?_cons_zero, Option.some_inj] at h
      subst h
      simp only [deserializeVariantHelper]
      rw [if_pos (by omega)]
      rw [hpay (defaultValue first) rest junk]
    | succ k =>
      simp only [List.getElem?_cons_succ] at h
      simp only [deserializeVariantHelper]
      rw [if_neg (by omega)]
      have hih := ih k (index + 1) a payload h hpay value rest junk
      rw [show index + (k + 1) = index + 1 + k by omega]
      exact hih

theorem deserialize_serialize {t : Ty} {v : Value} (h : WF t v) :
    ∀ (prior : Value) (rest : List Nat) (junk : Nat),
      deserializeValue t prior (serializeValue t v ++ rest) junk = (v, rest, []) := by
  induction h with
  | @uint w n hw hn =>
    intro prior rest junk
    have hlt : n < 2 ^ 64 := lt_of_lt_of_le hn (Nat.pow_le_pow_right (by omega) hw)
    simp only [serializeValue, deserializeValue, visitDeserializeUnsigned]
    rw [read_write_unsigned _ _ hlt]
    simp [Prod.map, Nat.mod_eq_of_lt hn]
  | @sint w i h1 h2 h3 h4 =>
    intro prior rest junk
    have hle : (2 : Int) ^ (w - 1) ≤ 2 ^ 63 := by
      apply pow_le_pow_right₀ (by norm_num) (by omega)
    have hlo : -(2 ^ 63) ≤ i := by omega
    have hhi : i < 2 ^ 63 := by omega
    simp only [serializeValue, deserializeValue, visitDeserializeSigned]
    rw [read_write_signed i rest hlo hhi]
    simp [Prod.map, castToSigned_eq w i h1 h3 h4]
  | @bool n hn =>
    intro prior rest junk
    have hlt : n < 2 ^ 64 := by omega
    simp only [serializeValue, deserializeValue, visitDeserializeBool]
    rw [read_write_unsigned _ _ hlt]
    have : n = 0 ∨ n = 1 := by omega
    rcases this with rfl | rfl <;> simp [Prod.map]
  | @char b hb =>
    intro prior rest junk
    have hlt : b < 2 ^ 64 := by omega
    have hmod : b % 2 ^ 8 = b := Nat.mod_eq_of_lt (by omega)
    simp only [serializeValue, deserializeValue, visitDeserializeUnsigned]
    rw [read_write_unsigned _ _ hlt]
    simp [Prod.map]
    omega
  | @enumU w n hw hn =>
    intro prior rest junk
    have hlt : n < 2 ^ 64 := lt_of_lt_of_le hn (Nat.pow_le_pow_right (by omega) hw)
    simp only [serializeValue, deserializeValue, visitDeserializeUnsigned]
    rw [read_write_unsigned _ _ hlt]
    simp [Prod.map, Nat.mod_eq_of_lt hn]
  | @enumS w i h1 h2 h3 h4 =>
    intro prior rest junk
    have hle : (2 : Int) ^ (w - 1) ≤ 2 ^ 63 := by
      apply pow_le_pow_right₀ (by norm_num) (by omega)
    have hlo : -(2 ^ 63) ≤ i := by omega
    have hhi : i < 2 ^ 63 := by omega
    simp only [serializeValue, deserializeValue, visitDeserializeSigned]
    rw [read_write_signed i rest hlo hhi]
    simp [Prod.map, castToSigned_eq w i h1 h3 h4]
  | @str s hlen hbytes =>
    intro prior rest junk
    simp only [serializeValue, deserializeValue, visitDeserializeString,
      List.append_assoc]
    rw [read_write_unsigned _ _ hlen]
    have hfuel : s.length < (s ++ rest).length + 1 := by
      rw [List.length_append]
      omega
    have hred := readStringChunks_exact ((s ++ rest).length + 1) s rest [] s.length hfuel
    simp only [List.length_append, List.nil_append] at hred
    simp [Prod.map, hred]
  | @vec t elems hlen hwf hne ih =>
    intro prior rest junk
    have key : ∀ (es : List Value),
        (∀ e ∈ es, ∀ (prior2 : Value) (rest2 : List Nat) (junk2 : Nat),
          deserializeValue t prior2 (serializeValue t e ++ rest2) junk2
            = (e, rest2, [])) →
        (∀ e ∈ es, serializeValue t e ≠ []) →
        ∀ (rest2 : List Nat) (junk2 : Nat),
          deserializeElems t es.length (serializeElems t es ++ rest2) junk2
            = (es, rest2, []) := by
      intro es
      induction es with
      | nil => intro _ _ rest2 junk2; simp [serializeElems, deserializeElems]
      | cons e es' ihe =>
        intro hall hne2 rest2 junk2
        simp only [serializeElems, deserializeElems, List.length_cons,
          List.append_assoc]
        rw [if_neg (by
          simp only [ne_eq, List.append_eq_nil, not_and_or]
          exact Or.inl (hne2 e (by simp)))]
        rw [hall e (by simp) (defaultValue t) _ junk2]
        rw [ihe (fun e he => hall e (by simp [he]))
          (fun e he => hne2 e (by simp [he])) rest2 junk2]
        simp
    simp only [serializeValue, deserializeValue, List.append_assoc]
    rw [read_write_unsigned _ _ hlen]
    have hkey := key elems ih hne rest junk
    simp [hkey]
  | @record name fields vals hlen hall ih =>
    intro prior rest junk
    have key : ∀ (fs : List (String × Ty)) (vs ps : List Value),
        vs.length = fs.length →
        (∀ p ∈ fs.zip vs, ∀ (prior2 : Value) (rest2 : List Nat) (junk2 : Nat),
          deserializeValue p.1.2 prior2 (serializeValue p.1.2 p.2 ++ rest2) junk2
            = (p.2, rest2, [])) →
        ∀ (rest2 : List Nat) (junk2 : Nat),
          deserializeFields fs ps (serializeFields fs vs ++ rest2) junk2
            = (vs, rest2, []) := by
      intro fs
      induction fs with
      | nil =>
        intro vs ps hl _ rest2 junk2
        have hv : vs = [] := List.length_eq_zero.1 (by simpa using hl)
        subst hv
        simp [serializeFields, deserializeFields]
      | cons ft fs' ihf =>
        intro vs ps hl hall2 rest2 junk2
        obtain ⟨l, t2⟩ := ft
        cases vs with
        | nil => simp at hl
        | cons v vs' =>
          simp only [serializeFields, deserializeFields, List.headD_cons,
            List.tail_cons, List.append_assoc]
          rw [hall2 ((l, t2), v) (by simp) (ps.headD (defaultValue t2)) _ junk2]
          rw [ihf vs' ps.tail (by simpa using hl)
            (fun p hp => hall2 p (by simp [hp])) rest2 junk2]
          simp
    simp only [serializeValue, deserializeValue]
    rw [key fields vals (priorFields prior) hlen ih rest junk]
  | @variant alts which a payload hwlt hget hwf ih =>
    intro prior rest junk
    simp only [serializeValue, deserializeValue, visitDeserializeUnsigned,
      serializeVariantPayload_eq alts which a payload hget, List.append_assoc]
    rw [read_write_unsigned _ _ (lt_of_lt_of_le hwlt (by norm_num))]
    have hmod : which % 2 ^ 32 = which := Nat.mod_eq_of_lt hwlt
    have hmod2 : which % 4294967296 = which := by omega
    have hh := deserializeVariantHelper_hit alts which 0 a payload hget ih
      prior rest junk
    rw [show (0 : Nat) + which = which by omega] at hh
    simp [Prod.map, hmod, hmod2, hh]

/-! ## Claims -/

/-- C2: for every 64-bit unsigned integer `x`, encoding `x` with
`write_unsigned_int` and then decoding the produced bytes with
`read_unsigned_int` succeeds (returns true) and yields `x` back, leaving any
following bytes unread. -/
theorem C2_unsigned_round_trip (x : Nat) (rest : List Nat) (hx : x < 2 ^ 64) :
    read_unsigned_int (write_unsigned_int x ++ rest) = some (x, rest) :=
  read_write_unsigned x rest hx

theorem C2_unsigned_round_trip_witness :
    300 < 2 ^ 64 ∧ read_unsigned_int (write_unsigned_int 300 ++ [9]) = some (300, [9]) :=
  ⟨by decide, C2_unsigned_round_trip 300 [9] (by decide)⟩

/-- C3: for every 64-bit signed integer `x` — including the minimum
representable value `-2^63`, stated as the second conjunct — encoding with
`write_signed_int` (the zigzag mapping, computed without overflow) and
decoding with `read_signed_int` succeeds and yields `x` back. -/
theorem C3_signed_round_trip (x : Int) (rest : List Nat)
    (h1 : -(2 ^ 63) ≤ x) (h2 : x < 2 ^ 63) :
    read_signed_int (write_signed_int x ++ rest) = (x, rest, true) ∧
      read_signed_int (write_signed_int (-(2 ^ 63))) = (-(2 ^ 63), [], true) := by
  refine ⟨read_write_signed x rest h1 h2, ?_⟩
  have h := read_write_signed (-(2 ^ 63)) [] (by norm_num) (by norm_num)
  simpa using h

theorem C3_signed_round_trip_witness :
    (-(2 ^ 63) ≤ (-1 : Int) ∧ (-1 : Int) < 2 ^ 63) ∧
      (read_signed_int (write_signed_int (-1) ++ []) = (-1, [], true) ∧
        read_signed_int (write_signed_int (-(2 ^ 63))) = (-(2 ^ 63), [], true)) :=
  ⟨⟨by decide, by decide⟩, C3_signed_round_trip (-1) [] (by decide) (by decide)⟩

/-- C4: for every 64-bit unsigned integer `x`, `write_unsigned_int` emits
exactly `ceil(bit_length(x) / 7)` bytes and at least one byte (so `x = 0`
emits exactly one byte); and `write_signed_int` applied to `-1` emits the
single byte `0b00000001`. -/
theorem C4_minimal_length (x : Nat) (hx : x < 2 ^ 64) :
    (write_unsigned_int x).length = max 1 ((bitLength x + 6) / 7) ∧
      write_signed_int (-1) = [1] :=
  ⟨write_unsigned_int_length x, by decide⟩

theorem C4_minimal_length_witness :
    300 < 2 ^ 64 ∧
      ((write_unsigned_int 300).length = max 1 ((bitLength 300 + 6) / 7) ∧
        write_signed_int (-1) = [1]) :=
  ⟨by decide, C4_minimal_length 300 (by decide)⟩

/-- C5 (code bug): when the varint for an unsigned arithmetic leaf cannot be
decoded, the diagnostic is appended, but the destination is not left at a
deterministic zero: it receives the truncation of the uninitialized
`uint64_t wide_value` (here the `junk` parameter — compare the results for
junk 7 and junk 0).  The signed leaf, whose `read_signed_int` always assigns
its output, does deterministically store 0. -/
theorem C5_uninitialized_unsigned_destination :
    visitDeserializeUnsigned 8 7 [] = (7, [], [numberError]) ∧
      visitDeserializeUnsigned 8 0 [] = (0, [], [numberError]) ∧
      visitDeserializeSigned 32 [] = (0, [], [numberError]) := by
  refine ⟨by decide, by decide, by decide⟩

/-- C6 (code bug): deserializing a string whose decoded length 5 exceeds
the 3 available body bytes does copy in bounded chunks, stop, and leave
the text short, and it records a diagnostic — but the diagnostic misstates
the byte count: it reports "only found 6" (the string length after
appending the final chunk, plus that chunk's length again) although only 3
bytes were found.  Moreover, when the body has zero available bytes
(length varint 5 followed by nothing), the loop's end-of-stream guard exits
before the first chunk and no diagnostic at all is recorded. -/
theorem C6_string_body_short :
    visitDeserializeString [] [5, 65, 66, 67]
        = ([65, 66, 67], [], [stringBodyError 5 6]) ∧
      stringBodyError 5 6
        = "Error: expected 5 bytes in string but only found 6\n" ∧
      visitDeserializeString [9, 9] [5] = ([], [], []) := by
  refine ⟨by decide, by decide, by decide⟩

/-- C7: when `BinaryDeserialize` decodes a tagged-union discriminant (an
`unsigned`, so the decoded `uint64_t` truncated to 32 bits) that is at
least the number of declared alternatives, it records a range-error
diagnostic naming the bad discriminant and the alternative count and leaves
the variant exactly as it was — it never selects a wrong alternative. -/
theorem C7_variant_range_error (alts : List Ty) (prior : Value)
    (input : List Nat) (d : Nat) (rest : List Nat) (junk : Nat)
    (hread : read_unsigned_int input = some (d, rest))
    (hrange : alts.length ≤ d % 2 ^ 32) :
    deserializeValue (.variantTy alts) prior input junk
      = (prior, rest, [variantRangeError (d % 2 ^ 32) alts.length]) := by
  simp only [deserializeValue, visitDeserializeUnsigned, hread]
  have hmiss := deserializeVariantHelper_miss alts (d % 2 ^ 32) 0 (by omega)
    prior rest junk
  norm_num at hmiss
  simp [Prod.map, hmiss]

theorem C7_variant_range_error_witness :
    (read_unsigned_int [5] = some (5, []) ∧ [Ty.uintTy 8, Ty.strTy].length ≤ 5 % 2 ^ 32) ∧
      deserializeValue (.variantTy [Ty.uintTy 8, Ty.strTy])
          (.vvar 0 (.vnat 3)) [5] 0
        = (.vvar 0 (.vnat 3), [], [variantRangeError (5 % 2 ^ 32) [Ty.uintTy 8, Ty.strTy].length]) :=
  ⟨⟨by decide, by decide⟩,
    C7_variant_range_error [Ty.uintTy 8, Ty.strTy] (.vvar 0 (.vnat 3)) [5] 5 [] 0
      (by decide) (by decide)⟩

/-- C8 counterexample: after deserializing a complete valid encoding
(`write_unsigned_int 7` for a `uint8_t`) with the five extra bytes "12345"
appended, the decoded value is intact and the unconsumed bytes remain in
the source — but the error sink is empty: no TrailingDataError (nor any
other) diagnostic is recorded, contradicting the claim that the condition
is reported as a distinct diagnostic. -/
theorem C8_no_trailing_diagnostic :
    deserializeValue (.uintTy 8) (.vnat 0)
        (serializeValue (.uintTy 8) (.vnat 7) ++ [49, 50, 51, 52, 53]) 0
      = (.vnat 7, [49, 50, 51, 52, 53], []) := by
  have hser : serializeValue (.uintTy 8) (.vnat 7) = [7] := by
    simp only [serializeValue]
    decide
  rw [hser]
  simp only [deserializeValue]
  have hv : visitDeserializeUnsigned 8 0 ([7] ++ [49, 50, 51, 52, 53])
      = (7, [49, 50, 51, 52, 53], []) := by decide
  rw [hv]
  rfl

/-- C8 (amended): trailing bytes appended to a complete valid encoding do
not corrupt the decoded value, and the unconsumed bytes remain available in
the source for the caller to query (the returned remaining input equals the
appended bytes); however no diagnostic of any kind is recorded — the error
sink stays empty. -/
theorem C8_trailing_bytes {t : Ty} {v : Value} (h : WF t v)
    (prior : Value) (extra : List Nat) (junk : Nat) :
    deserializeValue t prior (serializeValue t v ++ extra) junk = (v, extra, []) :=
  deserialize_serialize h prior extra junk

theorem C8_trailing_bytes_witness :
    WF (.uintTy 16) (.vnat 1000) ∧
      deserializeValue (.uintTy 16) (.vnat 0)
          (serializeValue (.uintTy 16) (.vnat 1000) ++ [49, 50]) 0
        = (.vnat 1000, [49, 50], []) :=
  ⟨WF.uint (by omega) (by decide),
    C8_trailing_bytes (WF.uint (by omega) (by decide)) (.vnat 0) [49, 50] 0⟩

/-- C9: a value serialized from a 64-bit unsigned integer and deserialized
into a `w`-bit unsigned destination is stored as the decoded value reduced
modulo `2 ^ w` (the `static_cast<T>` truncation), and no diagnostic is
recorded: a width mismatch is silently truncating, not an error. -/
theorem C9_narrowing_truncates (w x : Nat) (prior : Value) (rest : List Nat)
    (junk : Nat) (hw : w ≤ 64) (hx : x < 2 ^ 64) :
    deserializeValue (.uintTy w) prior
        (serializeValue (.uintTy 64) (.vnat x) ++ rest) junk
      = (.vnat (x % 2 ^ w), rest, []) := by
  simp only [serializeValue, deserializeValue, visitDeserializeUnsigned]
  rw [read_write_unsigned _ _ hx]
  simp [Prod.map]

theorem C9_narrowing_truncates_witness :
    (16 ≤ 64 ∧ 17291729 < 2 ^ 64) ∧
      deserializeValue (.uintTy 16) (.vnat 0)
          (serializeValue (.uintTy 64) (.vnat 17291729) ++ []) 0
        = (.vnat (17291729 % 2 ^ 16), [], []) :=
  ⟨⟨by omega, by decide⟩,
    C9_narrowing_truncates 16 17291729 (.vnat 0) [] 0 (by omega) (by decide)⟩

/-- C10: `char` and `signed char` are always serialized through their
`unsigned char` reinterpretation — the wire bytes are a function of the
byte pattern only, independent of the platform signedness of `char`, and a
character code in [0,127] emits the single varint byte equal to the code —
and deserializing reads an `unsigned char` and casts it back, so every
in-range char value round-trips on both platform flavors. -/
theorem C10_char_signedness (code : Nat) (hcode : code < 128)
    (sc : Bool) (c : Int) (hc : charInRange sc c) (junk : Nat) (rest : List Nat) :
    serializeCharValue (code : Int) = [code] ∧
      visitDeserializeChar sc junk (serializeCharValue c ++ rest) = (c, rest, []) := by
  constructor
  · have h1 : charToUnsignedByte (code : Int) = code := by
      unfold charToUnsignedByte
      omega
    unfold serializeCharValue
    rw [h1, write_unsigned_int_unfold]
    simp [hcode]
  · have hb : charToUnsignedByte c < 256 := by
      unfold charToUnsignedByte
      omega
    unfold visitDeserializeChar visitDeserializeUnsigned serializeCharValue
    rw [read_write_unsigned (charToUnsignedByte c) rest (by omega)]
    have hcast : castToChar sc (charToUnsignedByte c % 256) = c := by
      cases sc
      · have hc' : 0 ≤ c ∧ c < 256 := by simpa [charInRange] using hc
        simp only [castToChar, charToUnsignedByte, Bool.false_eq_true, false_and,
          if_false]
        omega
      · have hc' : -128 ≤ c ∧ c < 128 := by simpa [charInRange] using hc
        simp only [castToChar, charToUnsignedByte, true_and]
        split
        · omega
        · omega
    simp [hcast]

theorem C10_char_signedness_witness :
    (65 < 128 ∧ charInRange true (-56)) ∧
      (serializeCharValue ((65 : Nat) : Int) = [65] ∧
        visitDeserializeChar true 3 (serializeCharValue (-56) ++ [7]) = (-56, [7], [])) :=
  ⟨⟨by omega, by norm_num [charInRange]⟩,
    C10_char_signedness 65 (by omega) true (-56) (by norm_num [charInRange]) 3 [7]⟩

/-- C1 (amended): for every acyclic well-formed value built from integer
arithmetic primitives (bool, char, fixed-width signed/unsigned integers),
enums, strings, vectors, records, and variants — floating-point leaves
excluded, and with every vector element serializing to at least one byte
(both conditions are part of `WF`; see the counterexample) — serializing
with `BinarySerialize` and deserializing the produced bytes with
`BinaryDeserialize` into any destination yields exactly the original value,
hence an identical `CoutWriter` rendering, with an empty error sink. -/
theorem C1_round_trip {t : Ty} {v : Value} (h : WF t v)
    (prior : Value) (rest : List Nat) (junk : Nat) :
    deserializeValue t prior (serializeValue t v ++ rest) junk = (v, rest, []) ∧
      render t (deserializeValue t prior (serializeValue t v ++ rest) junk).1
        = render t v := by
  have hd := deserialize_serialize h prior rest junk
  exact ⟨hd, by rw [hd]⟩

theorem C1_round_trip_witness :
    WF sampleTy sampleValue ∧
      (deserializeValue sampleTy (.vrec []) (serializeValue sampleTy sampleValue ++ []) 0
          = (sampleValue, [], []) ∧
        render sampleTy
            (deserializeValue sampleTy (.vrec [])
              (serializeValue sampleTy sampleValue ++ []) 0).1
          = render sampleTy sampleValue) := by
  have hwf : WF sampleTy sampleValue := by
    apply WF.record rfl
    intro p hp
    fin_cases hp
    · exact WF.enumU (by omega) (by decide)
    · exact WF.str (by decide) (by decide)
    · refine WF.vec (by decide) ?_ ?_
      · intro e he
        fin_cases he
        · exact WF.sint (by omega) (by omega) (by decide) (by decide)
        · exact WF.sint (by omega) (by omega) (by decide) (by decide)
      · intro e he
        fin_cases he
        · simp only [serializeValue]
          decide
        · simp only [serializeValue]
          decide
    · exact WF.variant (by decide) rfl (WF.str (by decide) (by decide))
  exact ⟨hwf, C1_round_trip hwf (.vrec []) [] 0⟩

/-- C1 counterexample, in two parts.  First, a vector holding one value of
an empty record type: its element serializes to zero bytes, so the
serialized vector `[1]` ends the stream right after the count; the element
loop's end-of-stream guard then exits before reading the (zero-byte)
element, the decoded vector is empty, its rendering differs, and a spurious
"expected 1 elements" diagnostic is recorded.  Second, a floating point
leaf holding 0.5: the serializer converts it to `int64_t` (truncating to
0), so the round trip returns 0.0 with an empty error sink — the value and
its rendering differ.  Both refute the claim for values built from
arithmetic primitives and records. -/
theorem C1_counterexample :
    (deserializeValue (.vecTy (.recordTy "Empty" [])) (.vvec [])
        (serializeValue (.vecTy (.recordTy "Empty" [])) (.vvec [.vrec []]) ++ []) 0
      = (.vvec [], [], [vectorCountError 1 0])) ∧
      render (.vecTy (.recordTy "Empty" [])) (.vvec [])
        ≠ render (.vecTy (.recordTy "Empty" [])) (.vvec [.vrec []]) ∧
      (deserializeValue .floatTy (.vfloat (Rat.ofInt 0))
          (serializeValue .floatTy (.vfloat oneHalf) ++ []) 0
        = (.vfloat (Rat.ofInt 0), [], [])) ∧
      render .floatTy (.vfloat (Rat.ofInt 0)) ≠ render .floatTy (.vfloat oneHalf) := by
  refine ⟨?_, ?_, ?_, ?_⟩
  · have hser : serializeValue (.vecTy (.recordTy "Empty" [])) (.vvec [.vrec []]) ++ []
        = [1] := by
      simp only [serializeValue, serializeElems, serializeFields]
      decide
    rw [hser]
    simp only [deserializeValue]
    have hr : read_unsigned_int [1] = some (1, []) := by decide
    rw [hr]
    simp only [deserializeElems]
    simp
  · simp only [render, renderElems, renderFields]
    decide
  · have hser : serializeValue .floatTy (.vfloat oneHalf) ++ [] = [0] := by
      simp only [serializeValue]
      decide
    rw [hser]
    simp only [deserializeValue]
    have hv : visitDeserializeFloat [0] = (Rat.ofInt 0, [], []) := by decide
    rw [hv]
    rfl
  · simp only [render]
    decide
